import Mathlib

/-!
Verification of the prompt/line-editor subsystem of the gerrit shell front-end.

The Rust sources are shallowly embedded:
* `src/util.rs` — the prefix trie (`trie_rs` behaviour of `TrieBuilder.push` /
  `Trie.predictive_search` as used by `TrieUtils::collect_matches`),
  `str_rfind_last_word_separator`, and the `loading` progress indicator;
* `src/history.rs` — the global history store and `HistoryHandle`;
* `src/cli.rs` — the `prompt` key-event loop: the Tab and Enter
  token-resolution walks over the clap command schema.

Rust strings are modelled as their byte lists (`Str := List Nat`); machine
indices are `Nat`.  Fallible operations (`unwrap`) are modelled with `Option`,
`none` standing for a panic.
-/

namespace Gerrit

/-- A Rust `String` / `&str` (or `Vec<u8>` word from the `Trie<u8>`),
modelled as its list of bytes. -/
abbrev Str := List Nat

/-- `strStartsWith p w` is Rust `w.starts_with(p)`: `p` is a prefix of `w`. -/
def strStartsWith : Str → Str → Bool
  | [], _ => true
  | _ :: _, [] => false
  | a :: p, b :: w => if a = b then strStartsWith p w else false

/-! ## The prefix trie (`trie_rs::Trie<u8>` as used in `src/util.rs`)

`TrieBuilder::push` inserts a word; `Trie::predictive_search` returns every
stored word that starts with the given prefix.  The tree of byte-labelled
edges is represented in first-child / next-sibling form: a `Chain` is the
list of sibling edges at one level. -/

/-- One level of trie edges: `node b term child sib` is an edge labelled with
byte `b`, whose `term` flag marks the end of a stored word, with subtree
`child` and remaining sibling edges `sib`. -/
inductive Chain where
  | nil : Chain
  | node : Nat → Bool → Chain → Chain → Chain

/-- A fresh single-branch path storing the word `b :: w`. -/
def mkPath : Nat → Str → Chain
  | b, [] => .node b true .nil .nil
  | b, c :: w => .node b false (mkPath c w) .nil

/-- Insert the word `b :: w` into a sibling chain. -/
def insChain : Nat → Str → Chain → Chain
  | b, w, .nil => mkPath b w
  | b, w, .node b' t ch sib =>
    if b = b' then
      match w with
      | [] => .node b' true ch sib
      | c :: w' => .node b' t (insChain c w' ch) sib
    else
      .node b' t ch (insChain b w sib)

/-- All words stored in a sibling chain. -/
def chainWords : Chain → List Str
  | .nil => []
  | .node b t ch sib =>
    (if t then [[b]] else []) ++ (chainWords ch).map (b :: ·) ++ chainWords sib

/-- The edge labels of a sibling chain. -/
def chainKeys : Chain → List Nat
  | .nil => []
  | .node b _ _ sib => b :: chainKeys sib

/-- Well-formedness: edge labels are unique at every level. -/
def ChainWF : Chain → Prop
  | .nil => True
  | .node b _ ch sib => ChainWF ch ∧ ChainWF sib ∧ b ∉ chainKeys sib

/-- Descend along the prefix `b :: p` and return every stored word extending
it (the recursive core of `predictive_search`). -/
def chainSearch : Nat → Str → Chain → List Str
  | _, _, .nil => []
  | b, p, .node b' t ch sib =>
    if b = b' then
      match p with
      | [] => (if t then [[b']] else []) ++ (chainWords ch).map (b' :: ·)
      | c :: p' => (chainSearch c p' ch).map (b' :: ·)
    else
      chainSearch b p sib

/-- The trie: a possible empty-word mark at the root plus the first level of
edges. -/
structure Trie where
  rootTerm : Bool
  root : Chain

/-- `TrieBuilder::push`. -/
def Trie.push (t : Trie) (w : Str) : Trie :=
  match w with
  | [] => ⟨true, t.root⟩
  | b :: w' => ⟨t.rootTerm, insChain b w' t.root⟩

/-- `TrieBuilder::build` applied to a vocabulary: push every word. -/
def trieBuild (v : List Str) : Trie :=
  v.foldl Trie.push ⟨false, .nil⟩

/-- All words stored in the trie. -/
def trieWords (t : Trie) : List Str :=
  (if t.rootTerm then [[]] else []) ++ chainWords t.root

/-- `TrieUtils::collect_matches` (src/util.rs:26-33): every stored word
starting with `p`, via `predictive_search`. -/
def Trie.collect_matches (t : Trie) (p : Str) : List Str :=
  match p with
  | [] => trieWords t
  | b :: p' => chainSearch b p' t.root

/-! ## `str_rfind_last_word_separator` (src/util.rs:133-162)

`str::rfind` with a `char` predicate that is only true of ASCII characters
returns the byte index of the last matching (single-byte) character, so the
byte-level `rfindIdx` below is exactly the `rfind` call of the source.  The
`while let` loop becomes `sepLoopF`, driven by fuel `s.length + 1`: every
iteration shrinks the string (`split_at cursor`), so the fuel never runs
out. -/

/-- The separator predicate on bytes:
`c.is_ascii_punctuation() || c.is_ascii_whitespace()`.  Punctuation is
`0x21-0x2F`, `0x3A-0x40`, `0x5B-0x60`, `0x7B-0x7E`; ASCII whitespace is
space, `\t`, `\n`, `\x0C`, `\r`. -/
def isWordSep (b : Nat) : Bool :=
  (0x21 ≤ b && b ≤ 0x2F) || (0x3A ≤ b && b ≤ 0x40) ||
  (0x5B ≤ b && b ≤ 0x60) || (0x7B ≤ b && b ≤ 0x7E) ||
  b = 0x20 || b = 0x9 || b = 0xA || b = 0xC || b = 0xD

/-- Byte index of the last byte satisfying `p` (Rust `str::rfind` for an
ASCII-only predicate). -/
def rfindIdx (p : Nat → Bool) : Str → Option Nat
  | [] => none
  | b :: rest =>
    match rfindIdx p rest with
    | some i => some (i + 1)
    | none => if p b then some 0 else none

/-- The `while let Some(cursor) = str.rfind(..)` loop.  State:
`(str, break_cursor, prev_cursor_after)`.  The `if cursor <
prev_cursor_after.saturating_sub(2)` break sets `break_cursor := cursor + 1`
(`Nat` subtraction is saturating). -/
def sepLoopF : Nat → Str → Nat → Nat → (Str × Nat × Nat)
  | 0, str, breakc, prev => (str, breakc, prev)
  | fuel + 1, str, breakc, prev =>
    match rfindIdx isWordSep str with
    | none => (str, breakc, prev)
    | some cursor =>
      let str' := str.take cursor
      if cursor < prev - 2 then (str', cursor + 1, prev)
      else sepLoopF fuel str' breakc (cursor + 1)

/-- `str_rfind_last_word_separator` (src/util.rs:133-162). -/
def str_rfind_last_word_separator (s : Str) : Nat :=
  let r := sepLoopF (s.length + 1) s 0 0
  if r.1 = [] then 0
  else if r.2.2 = s.length then r.2.1
  else r.2.2

/-! UTF-8 well-formedness of a byte string, for the char-boundary safety
claim about the ALT-Backspace handler (src/cli.rs:255-279). -/

/-- A UTF-8 continuation byte (`0x80..0xBF`). -/
def isCont (b : Nat) : Bool := 0x80 ≤ b && b < 0xC0

/-- The byte string is a sequence of well-formed UTF-8 character encodings
(lead byte of each length class followed by the right number of
continuation bytes). -/
def utf8ValidB : Str → Bool
  | [] => true
  | b :: rest =>
    if b < 0x80 then utf8ValidB rest
    else if b < 0xC0 then false
    else if b < 0xE0 then
      match rest with
      | c1 :: r => isCont c1 && utf8ValidB r
      | _ => false
    else if b < 0xF0 then
      match rest with
      | c1 :: c2 :: r => isCont c1 && isCont c2 && utf8ValidB r
      | _ => false
    else if b < 0xF8 then
      match rest with
      | c1 :: c2 :: c3 :: r => isCont c1 && isCont c2 && isCont c3 && utf8ValidB r
      | _ => false
    else false

/-- Rust `str::is_char_boundary`: the end of the string, or an index holding
a non-continuation byte. -/
def isCharBoundary (s : Str) (i : Nat) : Bool :=
  i = s.length ||
  (match s[i]? with
   | some b => !isCont b
   | none => false)

/-! ## The history store (src/history.rs)

The global `HISTORY : Vec<String>` is passed explicitly as a `List Str`
(insertion order = chronological order); `HistoryHandle` keeps the scroll
index.  `up_next`/`down_next` return the updated handle together with the
`Option` result. -/

/-- The per-invocation scroll handle over the global history. -/
structure HistoryHandle where
  curr_index : Nat
deriving DecidableEq

/-- `HistoryHandle::get` (src/history.rs:28-33): a fresh handle positioned
at `history.len()`. -/
def HistoryHandle.get (history : List Str) : HistoryHandle :=
  ⟨history.length⟩

/-- `HistoryHandle::add` (src/history.rs:38-46): push, unless equal to the
chronologically last stored entry. -/
def histAdd (history : List Str) (new_line : Str) : List Str :=
  match history.getLast? with
  | some last_line => if new_line = last_line then history else history ++ [new_line]
  | none => history ++ [new_line]

/-- `HistoryHandle::up_next` (src/history.rs:50-57). -/
def upNext (history : List Str) (h : HistoryHandle) : HistoryHandle × Option Str :=
  if h.curr_index = 0 ∨ history.isEmpty then (h, none)
  else
    let i := h.curr_index - 1
    (⟨i⟩, history[i]?)

/-- `HistoryHandle::down_next` (src/history.rs:61-68). -/
def downNext (history : List Str) (h : HistoryHandle) : HistoryHandle × Option Str :=
  if history.length ≤ h.curr_index then (h, none)
  else
    let i := h.curr_index + 1
    (⟨i⟩, history[i]?)

/-! ## The command schema (the clap `Command` tree as used by src/cli.rs)

Only the parts of a clap `Command` the prompt loop consults are modelled:
name, aliases (all / visible), subcommands, and the positional argument
list (`get_arguments()`), each argument with its possible values (each
value a name with aliases, `get_name_and_aliases`) and `required` flag. -/

/-- A clap `Arg`: `get_possible_values` (each with aliases) and
`is_required_set`. -/
structure ArgSpec where
  possible_values : List (List Str)
  required : Bool

/-- A clap `Command` node. -/
inductive Cmd where
  | mk : Str → List Str → List Str → List Cmd → List ArgSpec → Cmd

def Cmd.name : Cmd → Str
  | .mk n _ _ _ _ => n

/-- `get_all_aliases`. -/
def Cmd.all_aliases : Cmd → List Str
  | .mk _ a _ _ _ => a

/-- `get_visible_aliases`. -/
def Cmd.visible_aliases : Cmd → List Str
  | .mk _ _ v _ _ => v

/-- `get_subcommands`. -/
def Cmd.subs : Cmd → List Cmd
  | .mk _ _ _ s _ => s

/-- `get_arguments`. -/
def Cmd.args : Cmd → List ArgSpec
  | .mk _ _ _ _ a => a

/-- `get_arguments().next()`. -/
def Cmd.first_arg (c : Cmd) : Option ArgSpec :=
  c.args.head?

/-- The vocabulary pushed by `get_command_trie` (src/util.rs:38-48): each
subcommand's name followed by all its aliases. -/
def cmdVocab (c : Cmd) : List Str :=
  c.subs.foldr (fun s acc => (s.name :: s.all_aliases) ++ acc) []

/-- `get_command_trie` (src/util.rs:38-48). -/
def get_command_trie (c : Cmd) : Trie :=
  trieBuild (cmdVocab c)

/-- The vocabulary pushed by `get_arg_values_trie` (src/util.rs:66-74):
every possible value's name and aliases. -/
def argVocab (a : ArgSpec) : List Str :=
  a.possible_values.foldr (fun v acc => v ++ acc) []

/-- `get_arg_values_trie` (src/util.rs:66-74). -/
def get_arg_values_trie (a : ArgSpec) : Trie :=
  trieBuild (argVocab a)

/-- `get_visible_command_vector` (src/util.rs:52-62): names and visible
aliases. -/
def get_visible_command_vector (c : Cmd) : List Str :=
  c.subs.foldr (fun s acc => (s.name :: s.visible_aliases) ++ acc) []

/-- `get_arg_values_vector` (src/util.rs:78-86). -/
def get_arg_values_vector (a : ArgSpec) : List Str :=
  argVocab a

/-! ## Tokenisation of the input buffer

`user_input.split_whitespace()` with the byte offset of every word
(`str.as_ptr()` arithmetic in the source) and, per word, whether a
whitespace byte follows it in the buffer. -/

/-- Rust `char::is_whitespace` restricted to bytes: `\t \n \v \f \r` and
space. -/
def isWsByte (b : Nat) : Bool :=
  b = 9 || b = 10 || b = 11 || b = 12 || b = 13 || b = 32

/-- Accumulating splitter: current byte position, and the word currently
being read (`some (start, reversed bytes)`). -/
def tokGo : Str → Nat → Option (Nat × Str) → List (Nat × Str)
  | [], _, none => []
  | [], _, some (j, w) => [(j, w.reverse)]
  | b :: rest, i, none =>
    if isWsByte b then tokGo rest (i + 1) none
    else tokGo rest (i + 1) (some (i, [b]))
  | b :: rest, i, some (j, w) =>
    if isWsByte b then (j, w.reverse) :: tokGo rest (i + 1) none
    else tokGo rest (i + 1) (some (j, b :: w))

/-- `split_whitespace` with byte offsets. -/
def tokenize (s : Str) : List (Nat × Str) :=
  tokGo s 0 none

/-- Is the byte at index `i` whitespace
(`user_input.chars().nth(i).map_or_else(|| false, |c| c.is_whitespace())`)? -/
def wsAt (s : Str) (i : Nat) : Bool :=
  (s[i]?.map isWsByte).getD false

/-- Rust `String::insert_str(i, t)`. -/
def insertStr (s : Str) (i : Nat) (t : Str) : Str :=
  s.take i ++ t ++ s.drop i

/-- Rust `str::trim` (whitespace from both ends). -/
def trimStr (s : Str) : Str :=
  ((s.dropWhile isWsByte).reverse.dropWhile isWsByte).reverse

/-- `user_input.ends_with(" ")`. -/
def endsWithSpace (s : Str) : Bool :=
  s.getLast? = some 32

/-! ## The Tab / Enter token-resolution walks (src/cli.rs `prompt`)

Each walk threads `(curr_cmd_schema, user_input_offset, new_user_input)`
(Enter additionally `args` and `cmd_arg_given`) through the token list and
either exits early — invalid input, or an ambiguous suggestion — or
completes.  `unwrap` calls are modelled by `Option` (`none` = panic). -/

/-- Early exit of a walk: `invalid word new_user_input` (zero matches, or
an ambiguous whitespace-terminated word) or `suggest matches
new_user_input` (ambiguous word still being typed). -/
inductive WalkExit where
  | invalid : Str → Str → WalkExit
  | suggest : List Str → Str → WalkExit
deriving DecidableEq

/-- The state when an Enter walk has consumed every token. -/
structure WalkDone where
  final : Cmd
  args : List Str
  argGiven : Bool
  newInput : Str

/-- The auto-completion splice (src/cli.rs:467-473): when the typed word is
shorter than the match, insert the missing suffix at the word's end offset
in `new_user_input` and grow the offset. -/
def spliceIfNeeded (idx : Nat) (w : Str) (off : Nat) (ni : Str) (cmd : Str) :
    Nat × Str :=
  if w.length < cmd.length then
    let rem := cmd.drop w.length
    (off + rem.length, insertStr ni (idx + w.length + off) rem)
  else (off, ni)

/-- `curr_cmd_schema.get_subcommands().find(|c| c.get_name() == cmd ||
c.get_all_aliases().find(|a| a == cmd) != None)`. -/
def findSub (c : Cmd) (w : Str) : Option Cmd :=
  c.subs.find? fun s => decide (s.name = w) || decide (w ∈ s.all_aliases)

/-- The Enter arm's token walk (src/cli.rs:422-489). -/
def enterGo (input : Str) :
    List (Nat × Str) → Cmd → List Str → Nat → Str → Bool →
    Option (WalkExit ⊕ WalkDone)
  | [], curr, args, _, ni, ag => some (.inr ⟨curr, args, ag, ni⟩)
  | (idx, w) :: ts, curr, args, off, ni, ag =>
    match curr.first_arg with
    | some a =>
      if a.possible_values = [] then
        -- positional argument with no enumerated values: consume verbatim
        enterGo input ts curr (args ++ [w]) off ni true
      else
        let hasEndWs := wsAt input (idx + w.length)
        let ms := (get_arg_values_trie a).collect_matches w
        if ms = [] ∨ (1 < ms.length ∧ hasEndWs = true) then
          some (.inl (.invalid w ni))
        else if 1 < ms.length then
          some (.inl (.suggest ms ni))
        else
          match ms.getLast? with
          | none => none
          | some cmd =>
            let p := spliceIfNeeded idx w off ni cmd
            enterGo input ts curr (args ++ [cmd]) p.1 p.2 true
    | none =>
      let hasEndWs := wsAt input (idx + w.length)
      let ms := (get_command_trie curr).collect_matches w
      if ms = [] ∨ (1 < ms.length ∧ hasEndWs = true) then
        some (.inl (.invalid w ni))
      else if 1 < ms.length then
        some (.inl (.suggest ms ni))
      else
        match ms.getLast? with
        | none => none
        | some cmd =>
          let p := spliceIfNeeded idx w off ni cmd
          match findSub curr cmd with
          | none => none
          | some nxt => enterGo input ts nxt (args ++ [cmd]) p.1 p.2 ag

/-- The Tab arm's token walk (src/cli.rs:304-371).  Unlike Enter it has no
verbatim-argument branch: with `cmd_arg.is_some()` the value trie is always
consulted, and no `args` are accumulated (`cmd_arg_given` is set but never
read afterwards, so it is dropped here). -/
def tabGo (input : Str) :
    List (Nat × Str) → Cmd → Nat → Str →
    Option (WalkExit ⊕ (Cmd × Str))
  | [], curr, _, ni => some (.inr (curr, ni))
  | (idx, w) :: ts, curr, off, ni =>
    let hasEndWs := wsAt input (idx + w.length)
    let ms :=
      (match curr.first_arg with
       | some a => get_arg_values_trie a
       | none => get_command_trie curr).collect_matches w
    if ms = [] ∨ (1 < ms.length ∧ hasEndWs = true) then
      some (.inl (.invalid w ni))
    else if 1 < ms.length then
      some (.inl (.suggest ms ni))
    else
      match ms.getLast? with
      | none => none
      | some cmd =>
        let p := spliceIfNeeded idx w off ni cmd
        match curr.first_arg with
        | some _ => tabGo input ts curr p.1 p.2
        | none =>
          match findSub curr cmd with
          | none => none
          | some nxt => tabGo input ts nxt p.1 p.2

/-- The observable outcome of one Enter key press, with the post-state
history and buffer recorded where the source mutates them. -/
inductive EnterOutcome where
  /-- Empty buffer: the prompt is reprinted, nothing else changes. -/
  | reprompt : List Str → Str → EnterOutcome
  /-- "Invalid input: word" printed; history gets `new_user_input`
  (untrimmed); buffer cleared. -/
  | invalid : Str → List Str → Str → EnterOutcome
  /-- Candidate list printed; history and buffer unchanged. -/
  | suggest : List Str → List Str → Str → EnterOutcome
  /-- "Missing argument" printed; history gets the trimmed line; buffer
  cleared; the editor keeps looping. -/
  | missingArg : List Str → Str → EnterOutcome
  /-- `prompt` returns `Ok(args)`; history gets the trimmed line. -/
  | resolved : List Str → List Str → EnterOutcome
deriving DecidableEq

/-- The Enter arm (src/cli.rs:402-506) for one key press. -/
def enterKey (root : Cmd) (input : Str) (hist : List Str) :
    Option EnterOutcome :=
  if input = [] then some (.reprompt hist input)
  else
    match enterGo input (tokenize input) root [] 0 input false with
    | none => none
    | some (.inl (.invalid w ni)) => some (.invalid w (histAdd hist ni) [])
    | some (.inl (.suggest ms _)) => some (.suggest ms hist input)
    | some (.inr d) =>
      let hist' := histAdd hist (trimStr d.newInput)
      match d.final.first_arg with
      | some a =>
        if a.required = true ∧ d.argGiven = false then
          some (.missingArg hist' [])
        else
          some (.resolved d.args hist')
      | none => some (.resolved d.args hist')

/-- The observable outcome of one Tab key press (Tab never touches the
history; the buffer changes only on `complete`). -/
inductive TabOutcome where
  /-- Empty buffer: the visible top-level command list is printed below the
  cursor (`suggestion_printed_below` is set); buffer unchanged. -/
  | emptySuggest : List Str → TabOutcome
  /-- "Invalid input: word" printed below; buffer unchanged. -/
  | invalid : Str → TabOutcome
  /-- Candidate list printed below; buffer unchanged. -/
  | suggest : List Str → TabOutcome
  /-- Trailing space with more tree below: next-level candidate list
  printed; buffer unchanged. -/
  | browse : List Str → TabOutcome
  /-- Auto-completion: the buffer becomes `new_user_input ++ " "`. -/
  | complete : Str → TabOutcome
  /-- Nothing left to do. -/
  | noChange : TabOutcome
deriving DecidableEq

/-- The Tab arm (src/cli.rs:283-399) for one key press. -/
def tabKey (root : Cmd) (input : Str) : Option TabOutcome :=
  if input = [] then
    some (.emptySuggest (get_visible_command_vector root))
  else
    match tabGo input (tokenize input) root 0 input with
    | none => none
    | some (.inl (.invalid w _)) => some (.invalid w)
    | some (.inl (.suggest ms _)) => some (.suggest ms)
    | some (.inr (curr, ni)) =>
      if endsWithSpace input = true ∧ (curr.subs.isEmpty = false ∨ curr.args.isEmpty = false) then
        if curr.subs.isEmpty = false then
          some (.browse (get_visible_command_vector curr))
        else
          match curr.args.head? with
          | some a => some (.browse (get_arg_values_vector a))
          | none => none
      else if input ≠ ni then some (.complete (ni ++ [32]))
      else some .noChange

/-! ## The progress-indicator interleavings (src/util.rs:113-129 `loading`
and src/change.rs:96-99 `query_changes`)

The worker spawned by `loading` loops `while !flag.load() { print "."; sleep }`;
the primary thread, after the collaborator call, runs `flag.store(true)`
and then clears the current line — without joining the worker (the
`JoinHandle` is discarded).  A trace is any interleaving of the two event
sequences in which every flag load sees the current flag value. -/

/-- One event of the loading-indicator system. -/
inductive LEv where
  /-- The worker reads the cancellation flag and sees `b`. -/
  | load : Bool → LEv
  /-- The worker prints a `.` tick glyph. -/
  | tick : LEv
  /-- The primary thread sets the flag (`loading_done.store(true)`). -/
  | store : LEv
  /-- The primary thread clears the indicator's line. -/
  | clear : LEv
deriving DecidableEq

/-- The worker's events of a trace, in order. -/
def workerTrace (t : List LEv) : List LEv :=
  t.filter fun e =>
    match e with
    | .load _ => true
    | .tick => true
    | _ => false

/-- The primary thread's events of a trace, in order. -/
def primTrace (t : List LEv) : List LEv :=
  t.filter fun e =>
    match e with
    | .store => true
    | .clear => true
    | _ => false

/-- The worker projection follows `while !flag { print "."; sleep }`: any
number of `load false, tick` rounds, possibly cut anywhere, ending after a
`load true`. -/
def workerOk : List LEv → Bool
  | [] => true
  | [.load false] => true
  | [.load true] => true
  | .load false :: .tick :: r => workerOk r
  | _ => false

/-- The primary projection is a prefix of `store; clear`
(src/change.rs:98-99). -/
def primOk (t : List LEv) : Bool :=
  decide (t = []) || decide (t = [.store]) || decide (t = [.store, .clear])

/-- Every flag load observes the current flag value (the `AtomicBool` with
`SeqCst` ordering). -/
def flagOk : List LEv → Bool → Bool
  | [], _ => true
  | .store :: r, _ => flagOk r true
  | .load b :: r, s => decide (b = s) && flagOk r s
  | _ :: r, s => flagOk r s

/-- An admissible execution of `loading` concurrent with the
store-then-clear of `query_changes`. -/
def validTrace (t : List LEv) : Bool :=
  workerOk (workerTrace t) && primOk (primTrace t) && flagOk t false

/-- Does a tick glyph get written after the line has been cleared? -/
def tickAfterClear : List LEv → Bool
  | [] => false
  | .clear :: r => r.any (fun e => decide (e = .tick)) || tickAfterClear r
  | _ :: r => tickAfterClear r

/-! ## Test fixture: a fragment of the `change` command schema
(src/change.rs:31-46) — `show` with a required `ID` positional argument
that has no possible values, and `help` with hidden alias `?`. -/

/-- `Arg::new("ID").required(true)`. -/
def idArg : ArgSpec := ⟨[], true⟩

/-- `Command::new("show").arg(Arg::new("ID").required(true))`. -/
def showCmd : Cmd := Cmd.mk [115, 104, 111, 119] [] [] [] [idArg]

/-- `Command::new("help").alias("?")` (a hidden alias). -/
def helpCmd : Cmd := Cmd.mk [104, 101, 108, 112] [[63]] [] [] []

/-- A root schema with subcommands `show` and `help`. -/
def rootCmd : Cmd := Cmd.mk [103] [] [] [showCmd, helpCmd] []

/-! # Lemmas and claim theorems -/

@[simp]
theorem strStartsWith_nil (w : Str) : strStartsWith [] w = true := rfl

@[simp]
theorem strStartsWith_cons_nil (a : Nat) (p : Str) :
    strStartsWith (a :: p) [] = false := rfl

@[simp]
theorem strStartsWith_cons_cons (a b : Nat) (p w : Str) :
    strStartsWith (a :: p) (b :: w) =
      if a = b then strStartsWith p w else false := rfl

theorem chainWords_mkPath (b : Nat) (w : Str) :
    chainWords (mkPath b w) = [b :: w] := by
  induction w generalizing b with
  | nil => simp [mkPath, chainWords]
  | cons c w ih => simp [mkPath, chainWords, ih c]

theorem chainKeys_mkPath (b : Nat) (w : Str) :
    chainKeys (mkPath b w) = [b] := by
  cases w <;> simp [mkPath, chainKeys]

theorem chainWF_mkPath (b : Nat) (w : Str) : ChainWF (mkPath b w) := by
  induction w generalizing b with
  | nil => simp [mkPath, ChainWF, chainKeys]
  | cons c w ih =>
    simp only [mkPath, ChainWF, chainKeys]
    exact ⟨ih c, trivial, by simp⟩

theorem mem_chainKeys_insChain (ch : Chain) (b : Nat) (w : Str) (d : Nat) :
    d ∈ chainKeys (insChain b w ch) ↔ d = b ∨ d ∈ chainKeys ch := by
  induction ch generalizing b w with
  | nil => simp [insChain, chainKeys_mkPath, chainKeys]
  | node b' t' ch sib ihch ihsib =>
    by_cases hb : b = b'
    · subst hb
      cases w with
      | nil =>
        simp only [insChain, eq_self_iff_true, if_true, chainKeys,
          List.mem_cons]
        tauto
      | cons c w' =>
        simp only [insChain, eq_self_iff_true, if_true, chainKeys,
          List.mem_cons]
        tauto
    · simp only [insChain, if_neg hb, chainKeys, List.mem_cons, ihsib]
      tauto

theorem chainWF_insChain (ch : Chain) (b : Nat) (w : Str) (h : ChainWF ch) :
    ChainWF (insChain b w ch) := by
  induction ch generalizing b w with
  | nil => simp [insChain, chainWF_mkPath]
  | node b' t' ch sib ihch ihsib =>
    obtain ⟨h1, h2, h3⟩ := h
    by_cases hb : b = b'
    · subst hb
      cases w with
      | nil =>
        simp only [insChain, eq_self_iff_true, if_true, ChainWF]
        exact ⟨h1, h2, h3⟩
      | cons c w' =>
        simp only [insChain, eq_self_iff_true, if_true, ChainWF]
        exact ⟨ihch c w' h1, h2, h3⟩
    · simp only [insChain, if_neg hb, ChainWF]
      refine ⟨h1, ihsib b w h2, ?_⟩
      rw [mem_chainKeys_insChain]
      rintro (h | h)
      · exact hb h.symm
      · exact h3 h

theorem mem_chainWords_insChain (ch : Chain) (b : Nat) (w : Str) (x : Str) :
    x ∈ chainWords (insChain b w ch) ↔ x = b :: w ∨ x ∈ chainWords ch := by
  induction ch generalizing b w x with
  | nil => simp [insChain, chainWords_mkPath, chainWords]
  | node b' t' ch sib ihch ihsib =>
    by_cases hb : b = b'
    · subst hb
      cases w with
      | nil =>
        cases t' <;>
          simp only [insChain, eq_self_iff_true, if_true, chainWords,
            List.mem_append, List.mem_map, List.mem_singleton,
            List.not_mem_nil, ite_true, ite_false, Bool.true_eq,
            Bool.false_eq_true, false_or, or_false, or_assoc]
        constructor
        · exact fun h => Or.inr h
        · rintro (h | h)
          · exact Or.inl h
          · exact h
      | cons c w' =>
        simp only [insChain, eq_self_iff_true, if_true, chainWords,
          List.mem_append, List.mem_map, ihch]
        constructor
        · rintro ((h | ⟨y, hy, rfl⟩) | h)
          · exact Or.inr (Or.inl (Or.inl h))
          · rcases hy with rfl | hy
            · exact Or.inl rfl
            · exact Or.inr (Or.inl (Or.inr ⟨y, hy, rfl⟩))
          · exact Or.inr (Or.inr h)
        · rintro (rfl | (h | ⟨y, hy, rfl⟩) | h)
          · exact Or.inl (Or.inr ⟨c :: w', Or.inl rfl, rfl⟩)
          · exact Or.inl (Or.inl h)
          · exact Or.inl (Or.inr ⟨y, Or.inr hy, rfl⟩)
          · exact Or.inr h
    · simp only [insChain, if_neg hb, chainWords, List.mem_append, ihsib]
      tauto

theorem chainWords_head (ch : Chain) (x : Str) (hx : x ∈ chainWords ch) :
    ∃ c y, x = c :: y ∧ c ∈ chainKeys ch := by
  induction ch with
  | nil => simp [chainWords] at hx
  | node b' t' ch sib ihch ihsib =>
    simp only [chainWords, List.mem_append, List.mem_map] at hx
    rcases hx with (h | ⟨y, _, rfl⟩) | h
    · have hx' : x = [b'] := by
        cases t' <;> simp at h
        exact h
      exact ⟨b', [], hx', by simp [chainKeys]⟩
    · exact ⟨b', y, rfl, by simp [chainKeys]⟩
    · obtain ⟨c, y, rfl, hc⟩ := ihsib h
      exact ⟨c, y, rfl, by simp [chainKeys, hc]⟩

theorem mem_chainSearch (ch : Chain) (b : Nat) (p : Str) (x : Str)
    (hwf : ChainWF ch) :
    x ∈ chainSearch b p ch ↔
      x ∈ chainWords ch ∧ strStartsWith (b :: p) x = true := by
  induction ch generalizing b p x with
  | nil => simp [chainSearch, chainWords]
  | node b' t' ch sib ihch ihsib =>
    obtain ⟨hwfc, hwfs, hkey⟩ := hwf
    by_cases hb : b = b'
    · subst hb
      have hsib : ∀ y : Str, y ∈ chainWords sib →
          strStartsWith (b :: p) y = false := by
        intro y hy
        obtain ⟨c, z, rfl, hc⟩ := chainWords_head sib y hy
        have hne : b ≠ c := fun h => hkey (h ▸ hc)
        simp [hne]
      cases p with
      | nil =>
        simp only [chainSearch, eq_self_iff_true, if_true]
        constructor
        · intro hx
          rcases List.mem_append.mp hx with h | h
          · have ht : t' = true := by
              cases t'
              · simp at h
              · rfl
            have hx' : x = [b] := by
              rw [ht] at h
              simpa using h
            subst hx'
            refine ⟨?_, by simp⟩
            simp [chainWords, ht, List.mem_append]
          · obtain ⟨y, hy, rfl⟩ := List.mem_map.mp h
            refine ⟨?_, by simp⟩
            simp only [chainWords, List.mem_append, List.mem_map]
            exact Or.inl (Or.inr ⟨y, hy, rfl⟩)
        · rintro ⟨hmem, hss⟩
          simp only [chainWords, List.mem_append, List.mem_map] at hmem
          rcases hmem with (h | h) | h
          · exact List.mem_append.mpr (Or.inl h)
          · exact List.mem_append.mpr (Or.inr (List.mem_map.mpr h))
          · rw [hsib x h] at hss
            exact absurd hss (by simp)
      | cons c p' =>
        simp only [chainSearch, eq_self_iff_true, if_true]
        constructor
        · intro hx
          obtain ⟨y, hy, rfl⟩ := List.mem_map.mp hx
          obtain ⟨hyw, hyss⟩ := (ihch c p' y hwfc).mp hy
          refine ⟨?_, by simp [hyss]⟩
          simp only [chainWords, List.mem_append, List.mem_map]
          exact Or.inl (Or.inr ⟨y, hyw, rfl⟩)
        · rintro ⟨hmem, hss⟩
          simp only [chainWords, List.mem_append, List.mem_map] at hmem
          rcases hmem with (h | ⟨y, hy, rfl⟩) | h
          · have hx' : x = [b] := by
              cases t' <;> simp at h
              exact h
            subst hx'
            simp at hss
          · simp only [strStartsWith_cons_cons, eq_self_iff_true,
              if_true] at hss
            exact List.mem_map.mpr ⟨y, (ihch c p' y hwfc).mpr ⟨hy, hss⟩, rfl⟩
          · rw [hsib x h] at hss
            exact absurd hss (by simp)
    · simp only [chainSearch, if_neg hb]
      rw [ihsib b p x hwfs]
      constructor
      · rintro ⟨hmem, hss⟩
        refine ⟨?_, hss⟩
        simp only [chainWords, List.mem_append]
        exact Or.inr hmem
      · rintro ⟨hmem, hss⟩
        refine ⟨?_, hss⟩
        simp only [chainWords, List.mem_append, List.mem_map] at hmem
        rcases hmem with (h | ⟨y, hy, rfl⟩) | h
        · have hx' : x = [b'] := by
            cases t' <;> simp at h
            exact h
          subst hx'
          simp [hb] at hss
        · simp [hb] at hss
        · exact h

theorem mem_trieWords_push (t : Trie) (w x : Str) :
    x ∈ trieWords (t.push w) ↔ x = w ∨ x ∈ trieWords t := by
  cases w with
  | nil =>
    cases h : t.rootTerm
    · simp [Trie.push, trieWords, h]
    · simp only [Trie.push, trieWords, h, if_true, List.mem_append,
        List.mem_singleton]
      tauto
  | cons b w' =>
    simp only [Trie.push, trieWords, List.mem_append,
      mem_chainWords_insChain]
    tauto

theorem chainWF_push (t : Trie) (w : Str) (h : ChainWF t.root) :
    ChainWF (t.push w).root := by
  cases w with
  | nil => exact h
  | cons b w' => exact chainWF_insChain t.root b w' h

theorem mem_trieWords_foldl (v : List Str) (t : Trie) (x : Str) :
    x ∈ trieWords (v.foldl Trie.push t) ↔ x ∈ v ∨ x ∈ trieWords t := by
  induction v generalizing t with
  | nil => simp
  | cons w v ih =>
    simp only [List.foldl_cons, ih, mem_trieWords_push, List.mem_cons]
    tauto

theorem chainWF_foldl (v : List Str) (t : Trie) (h : ChainWF t.root) :
    ChainWF ((v.foldl Trie.push t).root) := by
  induction v generalizing t with
  | nil => exact h
  | cons w v ih => exact ih _ (chainWF_push t w h)

theorem chainWF_trieBuild (v : List Str) : ChainWF (trieBuild v).root :=
  chainWF_foldl v ⟨false, .nil⟩ trivial

theorem mem_trieWords_build (v : List Str) (x : Str) :
    x ∈ trieWords (trieBuild v) ↔ x ∈ v := by
  rw [trieBuild, mem_trieWords_foldl]
  simp [trieWords, chainWords]

theorem mem_collect_matches (t : Trie) (p x : Str) (h : ChainWF t.root) :
    x ∈ t.collect_matches p ↔
      x ∈ trieWords t ∧ strStartsWith p x = true := by
  cases p with
  | nil => simp [Trie.collect_matches]
  | cons b p' =>
    show x ∈ chainSearch b p' t.root ↔ _
    rw [mem_chainSearch _ _ _ _ h]
    cases hr : t.rootTerm
    · simp [trieWords, hr]
    · simp only [trieWords, hr, if_true, List.mem_append,
        List.mem_singleton]
      constructor
      · rintro ⟨hw, hss⟩
        exact ⟨Or.inr hw, hss⟩
      · rintro ⟨h' | hw, hss⟩
        · subst h'
          simp at hss
        · exact ⟨hw, hss⟩

theorem collect_matches_trieBuild_nil (p : Str) :
    (trieBuild []).collect_matches p = [] := by
  cases p <;> rfl

/-- C1: for every vocabulary `v` handed to the prefix matcher — in
particular the subcommand names and aliases pushed by `get_command_trie`
and the argument values pushed by `get_arg_values_trie` — and for every
prefix `p`, `collect_matches` on the trie built from `v` returns exactly
the words of `v` that start with `p` (as a set), and the empty prefix
returns the entire vocabulary. -/
theorem c1_collect_matches (v : List Str) (p x : Str) (c : Cmd)
    (a : ArgSpec) :
    (x ∈ (trieBuild v).collect_matches p ↔
      x ∈ v ∧ strStartsWith p x = true)
    ∧ (x ∈ (trieBuild v).collect_matches [] ↔ x ∈ v)
    ∧ (x ∈ (get_command_trie c).collect_matches p ↔
        x ∈ cmdVocab c ∧ strStartsWith p x = true)
    ∧ (x ∈ (get_arg_values_trie a).collect_matches p ↔
        x ∈ argVocab a ∧ strStartsWith p x = true) := by
  have key : ∀ (v' : List Str) (p' x' : Str),
      x' ∈ (trieBuild v').collect_matches p' ↔
        x' ∈ v' ∧ strStartsWith p' x' = true := by
    intro v' p' x'
    rw [mem_collect_matches _ _ _ (chainWF_trieBuild v'),
      mem_trieWords_build]
  refine ⟨key v p x, ?_, key _ p x, key _ p x⟩
  rw [key v [] x]
  simp

/-! ### Lemmas about `str_rfind_last_word_separator` -/

theorem rfindIdx_lt_length (p : Nat → Bool) (s : Str) (i : Nat)
    (h : rfindIdx p s = some i) : i < s.length := by
  induction s generalizing i with
  | nil => simp [rfindIdx] at h
  | cons b rest ih =>
    simp only [rfindIdx] at h
    cases hr : rfindIdx p rest with
    | some i' =>
      rw [hr] at h
      simp only [Option.some.injEq] at h
      subst h
      simpa [List.length_cons] using ih i' hr
    | none =>
      rw [hr] at h
      by_cases hp : p b
      · simp only [hp, if_true, Option.some.injEq] at h
        subst h
        simp
      · simp [hp] at h

theorem rfindIdx_found (p : Nat → Bool) (s : Str) (i : Nat)
    (h : rfindIdx p s = some i) :
    ∃ b, s[i]? = some b ∧ p b = true := by
  induction s generalizing i with
  | nil => simp [rfindIdx] at h
  | cons b rest ih =>
    simp only [rfindIdx] at h
    cases hr : rfindIdx p rest with
    | some i' =>
      rw [hr] at h
      simp only [Option.some.injEq] at h
      subst h
      obtain ⟨c, hc, hpc⟩ := ih i' hr
      exact ⟨c, by simpa [List.getElem?_cons_succ] using hc, hpc⟩
    | none =>
      rw [hr] at h
      by_cases hp : p b
      · simp only [hp, if_true, Option.some.injEq] at h
        subst h
        exact ⟨b, by simp, hp⟩
      · simp [hp] at h

theorem rfindIdx_eq_none (p : Nat → Bool) (s : Str)
    (h : ∀ b ∈ s, p b = false) : rfindIdx p s = none := by
  induction s with
  | nil => rfl
  | cons b rest ih =>
    simp only [rfindIdx]
    rw [ih fun c hc => h c (List.mem_cons_of_mem b hc)]
    simp [h b (List.mem_cons_self b rest)]

theorem rfindIdx_all_sep (s : Str) (hne : s ≠ [])
    (h : ∀ b ∈ s, isWordSep b = true) :
    rfindIdx isWordSep s = some (s.length - 1) := by
  induction s with
  | nil => exact absurd rfl hne
  | cons b rest ih =>
    by_cases hr : rest = []
    · subst hr
      simp [rfindIdx, h b (List.mem_cons_self b [])]
    · have := ih hr fun c hc => h c (List.mem_cons_of_mem b hc)
      simp only [rfindIdx, this, List.length_cons]
      have hlen : 1 ≤ rest.length := by
        cases rest
        · exact absurd rfl hr
        · simp
      congr 1
      omega

theorem sepLoopF_all_sep (fuel : Nat) :
    ∀ (s : Str) (bc prev : Nat), (∀ b ∈ s, isWordSep b = true) →
      s.length < fuel → prev ≤ s.length + 1 →
      (sepLoopF fuel s bc prev).1 = [] := by
  induction fuel with
  | zero => intro s bc prev _ hlt _; omega
  | succ fuel ih =>
    intro s bc prev hsep hlt hprev
    by_cases hne : s = []
    · subst hne
      simp [sepLoopF, rfindIdx]
    · have hfind := rfindIdx_all_sep s hne hsep
      have hlen : 1 ≤ s.length := by
        cases s
        · exact absurd rfl hne
        · simp
      simp only [sepLoopF, hfind]
      rw [if_neg (by omega)]
      have htake : (s.take (s.length - 1)).length = s.length - 1 := by
        simp [List.length_take]
      refine ih (s.take (s.length - 1)) bc (s.length - 1 + 1) ?_ ?_ ?_
      · intro b hb
        exact hsep b (List.take_subset _ s hb)
      · omega
      · omega

/-- The loop state invariant: the candidate return value is `0` or the
successor of the index (in the original string `s`) of a separator byte. -/
def SepRes (s : Str) (r : Nat) : Prop :=
  r = 0 ∨ ∃ j b, r = j + 1 ∧ s[j]? = some b ∧ isWordSep b = true

theorem sepLoopF_res (s : Str) (fuel : Nat) :
    ∀ (str : Str) (bc prev : Nat) (tl : Str), str ++ tl = s →
      SepRes s bc → SepRes s prev →
      SepRes s (sepLoopF fuel str bc prev).2.1 ∧
      SepRes s (sepLoopF fuel str bc prev).2.2 := by
  induction fuel with
  | zero => intro str bc prev tl _ hbc hprev; exact ⟨hbc, hprev⟩
  | succ fuel ih =>
    intro str bc prev tl hpre hbc hprev
    cases hfind : rfindIdx isWordSep str with
    | none => simpa [sepLoopF, hfind] using ⟨hbc, hprev⟩
    | some cursor =>
      have hlt := rfindIdx_lt_length isWordSep str cursor hfind
      obtain ⟨b, hb, hsep⟩ := rfindIdx_found isWordSep str cursor hfind
      have hbs : s[cursor]? = some b := by
        rw [← hpre, List.getElem?_append, if_pos hlt]
        exact hb
      have hcur : SepRes s (cursor + 1) := Or.inr ⟨cursor, b, rfl, hbs, hsep⟩
      by_cases hbr : cursor < prev - 2
      · simpa [sepLoopF, hfind, hbr] using ⟨hcur, hprev⟩
      · have hrec := ih (str.take cursor) bc (cursor + 1)
          (str.drop cursor ++ tl)
          (by rw [← List.append_assoc, List.take_append_drop]; exact hpre)
          hbc hcur
        simpa [sepLoopF, hfind, hbr] using hrec

theorem str_rfind_res (s : Str) : SepRes s (str_rfind_last_word_separator s) := by
  have h := sepLoopF_res s (s.length + 1) s 0 0 [] (by simp)
    (Or.inl rfl) (Or.inl rfl)
  rw [str_rfind_last_word_separator]
  by_cases h1 : (sepLoopF (s.length + 1) s 0 0).1 = []
  · simp only [h1, if_pos rfl]
    exact Or.inl rfl
  · rw [if_neg h1]
    by_cases h2 : (sepLoopF (s.length + 1) s 0 0).2.2 = s.length
    · rw [if_pos h2]
      exact h.1
    · rw [if_neg h2]
      exact h.2

theorem sepRes_le (s : Str) (r : Nat) (h : SepRes s r) : r ≤ s.length := by
  rcases h with rfl | ⟨j, b, rfl, hj, _⟩
  · omega
  · have : j < s.length := by
      by_contra hc
      rw [List.getElem?_eq_none (by omega)] at hj
      cases hj
    omega

/-! ### UTF-8 character boundaries -/

theorem utf8ValidB_cons (b : Nat) (rest : Str) :
    utf8ValidB (b :: rest) =
      if b < 0x80 then utf8ValidB rest
      else if b < 0xC0 then false
      else if b < 0xE0 then
        (match rest with
         | c1 :: r => isCont c1 && utf8ValidB r
         | _ => false)
      else if b < 0xF0 then
        (match rest with
         | c1 :: c2 :: r => isCont c1 && isCont c2 && utf8ValidB r
         | _ => false)
      else if b < 0xF8 then
        (match rest with
         | c1 :: c2 :: c3 :: r =>
             isCont c1 && isCont c2 && isCont c3 && utf8ValidB r
         | _ => false)
      else false := by
  cases rest with
  | nil => rfl
  | cons c1 r1 =>
    cases r1 with
    | nil => rfl
    | cons c2 r2 =>
      cases r2 with
      | nil => rfl
      | cons c3 r3 => rfl

theorem utf8_head_not_cont (b : Nat) (r : Str)
    (h : utf8ValidB (b :: r) = true) : isCont b = false := by
  rw [utf8ValidB_cons] at h
  by_cases h1 : b < 0x80
  · simp only [isCont, Bool.and_eq_false_iff, decide_eq_false_iff_not]
    left
    omega
  · by_cases h2 : b < 0xC0
    · rw [if_neg h1, if_pos h2] at h
      cases h
    · simp only [isCont, Bool.and_eq_false_iff, decide_eq_false_iff_not]
      right
      omega

theorem isCharBoundary_cons (b : Nat) (r : Str) (i : Nat)
    (h : isCharBoundary r i = true) :
    isCharBoundary (b :: r) (i + 1) = true := by
  simp only [isCharBoundary, Bool.or_eq_true, decide_eq_true_eq] at h ⊢
  rcases h with h | h
  · exact Or.inl (by simp [h])
  · refine Or.inr ?_
    simpa [List.getElem?_cons_succ] using h

theorem isCharBoundary_zero (s : Str) (h : utf8ValidB s = true) :
    isCharBoundary s 0 = true := by
  cases s with
  | nil => simp [isCharBoundary]
  | cons b r =>
    have hb := utf8_head_not_cont b r h
    simp [isCharBoundary, hb]

theorem isCont_ge (c : Nat) (h : isCont c = true) : 0x80 ≤ c := by
  simp only [isCont, Bool.and_eq_true, decide_eq_true_eq] at h
  exact h.1

theorem ascii_next_boundary (n : Nat) :
    ∀ (s : Str), s.length ≤ n → utf8ValidB s = true →
      ∀ (j b : Nat), s[j]? = some b → b < 0x80 →
      isCharBoundary s (j + 1) = true := by
  induction n with
  | zero =>
    intro s hs _ j b hj _
    have hnil : s = [] := List.length_eq_zero.mp (Nat.le_zero.mp hs)
    subst hnil
    simp at hj
  | succ n ih =>
    intro s hs hv j b hj hb
    cases s with
    | nil => simp at hj
    | cons b0 rest =>
      rw [utf8ValidB_cons] at hv
      by_cases h1 : b0 < 0x80
      · rw [if_pos h1] at hv
        cases j with
        | zero =>
          cases rest with
          | nil => simp [isCharBoundary]
          | cons c r' =>
            have hc := utf8_head_not_cont c r' hv
            simp [isCharBoundary, hc]
        | succ k =>
          have hj' : rest[k]? = some b := by
            simpa [List.getElem?_cons_succ] using hj
          have hlen : rest.length ≤ n := by
            simp only [List.length_cons] at hs
            omega
          exact isCharBoundary_cons b0 rest (k + 1)
            (ih rest hlen hv k b hj' hb)
      · by_cases h2 : b0 < 0xC0
        · rw [if_neg h1, if_pos h2] at hv
          cases hv
        · by_cases h3 : b0 < 0xE0
          · rw [if_neg h1, if_neg h2, if_pos h3] at hv
            cases rest with
            | nil => simp at hv
            | cons c1 r =>
              have hv2 : isCont c1 = true ∧ utf8ValidB r = true := by
                simpa [Bool.and_eq_true] using hv
              obtain ⟨hc1, hvr⟩ := hv2
              cases j with
              | zero =>
                have hbb : b0 = b := by simpa using hj
                omega
              | succ j1 =>
                cases j1 with
                | zero =>
                  have hbc : c1 = b := by simpa using hj
                  have := isCont_ge c1 hc1
                  omega
                | succ k =>
                  have hj' : r[k]? = some b := by
                    simpa [List.getElem?_cons_succ] using hj
                  have hlen : r.length ≤ n := by
                    simp only [List.length_cons] at hs
                    omega
                  exact isCharBoundary_cons b0 _ _
                    (isCharBoundary_cons c1 r (k + 1)
                      (ih r hlen hvr k b hj' hb))
          · by_cases h4 : b0 < 0xF0
            · rw [if_neg h1, if_neg h2, if_neg h3, if_pos h4] at hv
              cases rest with
              | nil => simp at hv
              | cons c1 r1 =>
                cases r1 with
                | nil => simp at hv
                | cons c2 r =>
                  have hv2 : isCont c1 = true ∧ isCont c2 = true ∧
                      utf8ValidB r = true := by
                    simpa [Bool.and_eq_true, and_assoc] using hv
                  obtain ⟨hc1, hc2, hvr⟩ := hv2
                  cases j with
                  | zero =>
                    have hbb : b0 = b := by simpa using hj
                    omega
                  | succ j1 =>
                    cases j1 with
                    | zero =>
                      have hbc : c1 = b := by simpa using hj
                      have := isCont_ge c1 hc1
                      omega
                    | succ j2 =>
                      cases j2 with
                      | zero =>
                        have hbc : c2 = b := by simpa using hj
                        have := isCont_ge c2 hc2
                        omega
                      | succ k =>
                        have hj' : r[k]? = some b := by
                          simpa [List.getElem?_cons_succ] using hj
                        have hlen : r.length ≤ n := by
                          simp only [List.length_cons] at hs
                          omega
                        exact isCharBoundary_cons b0 _ _
                          (isCharBoundary_cons c1 _ _
                            (isCharBoundary_cons c2 r (k + 1)
                              (ih r hlen hvr k b hj' hb)))
            · by_cases h5 : b0 < 0xF8
              · rw [if_neg h1, if_neg h2, if_neg h3, if_neg h4,
                  if_pos h5] at hv
                cases rest with
                | nil => simp at hv
                | cons c1 r1 =>
                  cases r1 with
                  | nil => simp at hv
                  | cons c2 r2 =>
                    cases r2 with
                    | nil => simp at hv
                    | cons c3 r =>
                      have hv2 : isCont c1 = true ∧ isCont c2 = true ∧
                          isCont c3 = true ∧ utf8ValidB r = true := by
                        simpa [Bool.and_eq_true, and_assoc] using hv
                      obtain ⟨hc1, hc2, hc3, hvr⟩ := hv2
                      cases j with
                      | zero =>
                        have hbb : b0 = b := by simpa using hj
                        omega
                      | succ j1 =>
                        cases j1 with
                        | zero =>
                          have hbc : c1 = b := by simpa using hj
                          have := isCont_ge c1 hc1
                          omega
                        | succ j2 =>
                          cases j2 with
                          | zero =>
                            have hbc : c2 = b := by simpa using hj
                            have := isCont_ge c2 hc2
                            omega
                          | succ j3 =>
                            cases j3 with
                            | zero =>
                              have hbc : c3 = b := by simpa using hj
                              have := isCont_ge c3 hc3
                              omega
                            | succ k =>
                              have hj' : r[k]? = some b := by
                                simpa [List.getElem?_cons_succ] using hj
                              have hlen : r.length ≤ n := by
                                simp only [List.length_cons] at hs
                                omega
                              exact isCharBoundary_cons b0 _ _
                                (isCharBoundary_cons c1 _ _
                                  (isCharBoundary_cons c2 _ _
                                    (isCharBoundary_cons c3 r (k + 1)
                                      (ih r hlen hvr k b hj' hb))))
              · rw [if_neg h1, if_neg h2, if_neg h3, if_neg h4,
                  if_neg h5] at hv
                cases hv

theorem isWordSep_ascii (b : Nat) (h : isWordSep b = true) : b < 0x80 := by
  simp only [isWordSep, Bool.or_eq_true, Bool.and_eq_true,
    decide_eq_true_eq] at h
  omega

/-- C8 counterexample: on `"he.he "` (a word followed by a single trailing
separator, the claim's own example) the boundary is `3`, so ALT-Backspace
removes `"he "` — the word *and* the separator — not index `5`, which is
what removing only the trailing separator would require. -/
theorem c8_counterexample :
    str_rfind_last_word_separator [104, 101, 46, 104, 101, 32] = 3
    ∧ str_rfind_last_word_separator [104, 101, 46, 104, 101, 32] ≠ 5 := by
  constructor
  · decide
  · decide

/-- C8 amended: a string made entirely of separator characters returns `0`
(word-delete removes the whole string); but for a word followed by a single
trailing separator the boundary is the position just after the previous
separator run, so word-delete removes the final word together with its
trailing separator — `"he.he "` yields `3`, removing `"he "`. -/
theorem c8_amended_separator_boundary :
    (∀ s : Str, (∀ b ∈ s, isWordSep b = true) →
      str_rfind_last_word_separator s = 0)
    ∧ str_rfind_last_word_separator [104, 101, 46, 104, 101, 32] = 3 := by
  constructor
  · intro s hsep
    have h1 : (sepLoopF (s.length + 1) s 0 0).1 = [] :=
      sepLoopF_all_sep (s.length + 1) s 0 0 hsep (by omega) (by omega)
    simp only [str_rfind_last_word_separator]
    rw [if_pos h1]
  · decide

/-- Witness for the amended C8: the all-separator string `"???"` collapses
to boundary `0`. -/
theorem c8_amended_separator_boundary_witness :
    str_rfind_last_word_separator [63, 63, 63] = 0 :=
  c8_amended_separator_boundary.1 [63, 63, 63] (by decide)

/-- C10: for every input byte string the boundary returned by
`str_rfind_last_word_separator` is at most the length (so the Backspace
arm's `split_off` and `len - index` cannot panic), it lies on a UTF-8
character boundary whenever the input is well-formed UTF-8 (as a Rust
`String` is), and a string with no separator yields `0`. -/
theorem c10_boundary_safety (s : Str) :
    str_rfind_last_word_separator s ≤ s.length
    ∧ (utf8ValidB s = true →
        isCharBoundary s (str_rfind_last_word_separator s) = true)
    ∧ ((∀ b ∈ s, isWordSep b = false) →
        str_rfind_last_word_separator s = 0) := by
  have hres := str_rfind_res s
  refine ⟨sepRes_le s _ hres, ?_, ?_⟩
  · intro hv
    rcases hres with h0 | ⟨j, b, heq, hj, hsep⟩
    · rw [h0]
      exact isCharBoundary_zero s hv
    · rw [heq]
      exact ascii_next_boundary s.length s (Nat.le_refl _) hv j b hj
        (isWordSep_ascii b hsep)
  · intro hns
    have hfind : rfindIdx isWordSep s = none := rfindIdx_eq_none _ s hns
    have hloop : sepLoopF (s.length + 1) s 0 0 = (s, 0, 0) := by
      simp [sepLoopF, hfind]
    simp only [str_rfind_last_word_separator, hloop]
    by_cases hs0 : s = []
    · rw [if_pos hs0]
    · rw [if_neg hs0]
      by_cases hl : (0 : Nat) = s.length
      · rw [if_pos hl]
      · rw [if_neg hl]

/-- Witness for C10: on the valid UTF-8 input `"héllo "` the returned index
is a character boundary, and the separator-free `"hello"` yields `0`. -/
theorem c10_boundary_safety_witness :
    isCharBoundary [104, 195, 169, 108, 108, 111, 32]
      (str_rfind_last_word_separator [104, 195, 169, 108, 108, 111, 32]) =
      true
    ∧ str_rfind_last_word_separator [104, 101, 108, 108, 111] = 0 :=
  ⟨(c10_boundary_safety [104, 195, 169, 108, 108, 111, 32]).2.1 (by decide),
   (c10_boundary_safety [104, 101, 108, 108, 111]).2.2 (by decide)⟩

/-! ### History lemmas (C3, C4) -/

theorem histAdd_getLast (hist : List Str) (l : Str) :
    (histAdd hist l).getLast? = some l := by
  cases hl : hist.getLast? with
  | none => simp [histAdd, hl, List.getLast?_concat]
  | some last_line =>
    by_cases he : l = last_line
    · simp [histAdd, hl, he]
    · simp [histAdd, hl, he, List.getLast?_concat]

theorem histAdd_ne_nil (hist : List Str) (l : Str) : histAdd hist l ≠ [] := by
  intro h
  have := histAdd_getLast hist l
  rw [h] at this
  cases this

theorem histAdd_chain (hist : List Str) (l : Str)
    (h : List.Chain' (fun a b => a ≠ b) hist) :
    List.Chain' (fun a b => a ≠ b) (histAdd hist l) := by
  cases hl : hist.getLast? with
  | none =>
    have hnil : hist = [] := List.getLast?_eq_none_iff.mp hl
    subst hnil
    simp [histAdd]
  | some last_line =>
    by_cases he : l = last_line
    · simpa [histAdd, hl, he] using h
    · have hform : histAdd hist l = hist ++ [l] := by
        simp [histAdd, hl, he]
      rw [hform, List.chain'_append]
      refine ⟨h, List.chain'_singleton l, ?_⟩
      intro x hx y hy
      rw [hl] at hx
      simp only [Option.mem_def, Option.some.injEq] at hx
      simp only [List.head?_cons, Option.mem_def, Option.some.injEq] at hy
      subst hx
      subst hy
      exact fun hc => he hc.symm

theorem histAdd_histAdd (lines : List Str) (x : Str) :
    histAdd (histAdd lines x) x = histAdd lines x := by
  have h := histAdd_getLast lines x
  generalize hgen : histAdd lines x = L at h ⊢
  rw [histAdd, h]
  show (if x = x then L else L ++ [x]) = L
  rw [if_pos rfl]

theorem foldl_histAdd_chain (adds : List Str) (init : List Str)
    (h : List.Chain' (fun a b => a ≠ b) init) :
    List.Chain' (fun a b => a ≠ b) (adds.foldl histAdd init) := by
  induction adds generalizing init with
  | nil => exact h
  | cons a adds ih => exact ih (histAdd init a) (histAdd_chain init a h)

/-- After a fresh `HistoryHandle::get`, one ArrowUp (`up_next`) returns the
chronologically last stored entry. -/
theorem upNext_fresh_getLast (hist : List Str) (hne : hist ≠ []) :
    (upNext hist (HistoryHandle.get hist)).2 = hist.getLast? := by
  rw [upNext, HistoryHandle.get]
  have hlen : hist.length ≠ 0 := fun h => hne (List.length_eq_zero.mp h)
  rw [if_neg]
  · simp only []
    rw [List.getLast?_eq_getElem?]
  · rintro (h | h)
    · exact hlen h
    · exact hne (List.isEmpty_iff.mp h)

/-- C4: after any sequence of `add` operations starting from the empty
history, no two chronologically adjacent entries are equal, and
`add(x); add(x)` is a no-op after the first call (so the length is
unchanged). -/
theorem c4_history_no_adjacent_duplicates (adds : List Str)
    (lines : List Str) (x : Str) :
    List.Chain' (fun a b => a ≠ b) (adds.foldl histAdd [])
    ∧ histAdd (histAdd lines x) x = histAdd lines x
    ∧ (histAdd (histAdd lines x) x).length = (histAdd lines x).length := by
  refine ⟨foldl_histAdd_chain adds [] (by simp), histAdd_histAdd lines x, ?_⟩
  rw [histAdd_histAdd]

/-- C3: `up_next` returns `none` at index `0` or on empty history and
otherwise decrements the index and returns the line there; `down_next`
returns `none` at or past the end, otherwise increments, yielding `none`
exactly when the new index reaches the length; and the concrete round trip
over stored entries `["a","b"]` behaves as specified. -/
theorem c3_history_cursor (lines : List Str) (hd : HistoryHandle) :
    (hd.curr_index = 0 ∨ lines = [] → upNext lines hd = (hd, none))
    ∧ (hd.curr_index ≠ 0 → lines ≠ [] →
        upNext lines hd = (⟨hd.curr_index - 1⟩, lines[hd.curr_index - 1]?))
    ∧ (hd.curr_index ≠ 0 → hd.curr_index ≤ lines.length →
        ∃ s, upNext lines hd = (⟨hd.curr_index - 1⟩, some s)
          ∧ lines[hd.curr_index - 1]? = some s)
    ∧ (lines.length ≤ hd.curr_index → downNext lines hd = (hd, none))
    ∧ (hd.curr_index < lines.length →
        downNext lines hd = (⟨hd.curr_index + 1⟩, lines[hd.curr_index + 1]?)
        ∧ (hd.curr_index + 1 = lines.length → (downNext lines hd).2 = none))
    ∧ (upNext [[97], [98]] (HistoryHandle.get [[97], [98]]) =
        (⟨1⟩, some [98])
       ∧ upNext [[97], [98]] ⟨1⟩ = (⟨0⟩, some [97])
       ∧ upNext [[97], [98]] ⟨0⟩ = (⟨0⟩, none)
       ∧ downNext [[97], [98]] ⟨0⟩ = (⟨1⟩, some [98])
       ∧ downNext [[97], [98]] ⟨1⟩ = (⟨2⟩, none)) := by
  refine ⟨?_, ?_, ?_, ?_, ?_, by decide⟩
  · rintro (h | h)
    · rw [upNext, if_pos (Or.inl h)]
    · rw [upNext, if_pos (Or.inr (List.isEmpty_iff.mpr h))]
  · intro h1 h2
    rw [upNext, if_neg]
    rintro (h | h)
    · exact h1 h
    · exact h2 (List.isEmpty_iff.mp h)
  · intro h1 h2
    have hlt : hd.curr_index - 1 < lines.length := by omega
    refine ⟨lines[hd.curr_index - 1], ?_, List.getElem?_eq_getElem hlt⟩
    rw [upNext, if_neg]
    · show (⟨hd.curr_index - 1⟩, lines[hd.curr_index - 1]?) =
        ((⟨hd.curr_index - 1⟩ : HistoryHandle),
          some lines[hd.curr_index - 1])
      rw [List.getElem?_eq_getElem hlt]
    · rintro (h | h)
      · exact h1 h
      · have hnil : lines = [] := List.isEmpty_iff.mp h
        subst hnil
        simp at hlt
  · intro h
    rw [downNext, if_pos h]
  · intro h
    constructor
    · rw [downNext, if_neg (by omega)]
    · intro h2
      rw [downNext, if_neg (by omega)]
      show lines[hd.curr_index + 1]? = none
      exact List.getElem?_eq_none (by omega)

/-- Witness for C3: the general clauses evaluated at the concrete store
`["a","b"]` with a fresh cursor. -/
theorem c3_history_cursor_witness :
    upNext [[97], [98]] ⟨2⟩ = (⟨1⟩, some [98])
    ∧ downNext [[97], [98]] ⟨2⟩ = (⟨2⟩, none) :=
  ⟨(c3_history_cursor [[97], [98]] ⟨2⟩).2.1 (by decide) (by decide),
   (c3_history_cursor [[97], [98]] ⟨2⟩).2.2.2.1 (by decide)⟩

/-! ### The Tab / Enter walks (C2, C5, C6, C7) -/

theorem collect_matches_empty_vocab (a : ArgSpec)
    (hV : a.possible_values = []) (w : Str) :
    (get_arg_values_trie a).collect_matches w = [] := by
  have hvoc : argVocab a = [] := by rw [argVocab, hV]; rfl
  rw [get_arg_values_trie, hvoc]
  exact collect_matches_trieBuild_nil w

/-- C2 counterexample: on the buffer `"show 123"` against the `change`
schema fragment (`show` takes a positional `ID` with no enumerated values),
Tab reports the raw token `"123"` as invalid input, while Enter consumes it
verbatim and resolves to `["show", "123"]`. -/
theorem c2_counterexample :
    tabKey rootCmd [115, 104, 111, 119, 32, 49, 50, 51] =
      some (.invalid [49, 50, 51])
    ∧ enterKey rootCmd [115, 104, 111, 119, 32, 49, 50, 51] [] =
      some (.resolved [[115, 104, 111, 119], [49, 50, 51]]
        [[115, 104, 111, 119, 32, 49, 50, 51]]) := by
  constructor
  · decide
  · decide

/-- C2 amended: only the Enter walk has the verbatim-argument branch.  When
the current node expects a positional argument with no enumerated values,
Enter consumes the remaining raw token verbatim as the argument value (no
matching, never invalid); the Tab walk instead consults the value trie,
which is empty, and reports the token as invalid input. -/
theorem c2_amended_verbatim_argument (input : Str) (idx : Nat) (w : Str)
    (ts : List (Nat × Str)) (curr : Cmd) (args : List Str) (off : Nat)
    (ni : Str) (ag : Bool) (a : ArgSpec)
    (hA : curr.first_arg = some a) (hV : a.possible_values = []) :
    enterGo input ((idx, w) :: ts) curr args off ni ag =
      enterGo input ts curr (args ++ [w]) off ni true
    ∧ tabGo input ((idx, w) :: ts) curr off ni =
      some (.inl (.invalid w ni)) := by
  constructor
  · simp [enterGo, hA, hV]
  · have hms := collect_matches_empty_vocab a hV w
    simp [tabGo, hA, hms]

/-- Witness for the amended C2: the second token of `"show 123"` at the
`show` node. -/
theorem c2_amended_verbatim_argument_witness :
    enterGo [115, 104, 111, 119, 32, 49, 50, 51] [(5, [49, 50, 51])] showCmd
        [[115, 104, 111, 119]] 0 [115, 104, 111, 119, 32, 49, 50, 51]
        false =
      enterGo [115, 104, 111, 119, 32, 49, 50, 51] [] showCmd
        [[115, 104, 111, 119], [49, 50, 51]] 0
        [115, 104, 111, 119, 32, 49, 50, 51] true
    ∧ tabGo [115, 104, 111, 119, 32, 49, 50, 51] [(5, [49, 50, 51])] showCmd
        0 [115, 104, 111, 119, 32, 49, 50, 51] =
      some (.inl (.invalid [49, 50, 51]
        [115, 104, 111, 119, 32, 49, 50, 51])) :=
  c2_amended_verbatim_argument [115, 104, 111, 119, 32, 49, 50, 51] 5
    [49, 50, 51] [] showCmd [[115, 104, 111, 119]] 0
    [115, 104, 111, 119, 32, 49, 50, 51] false idArg rfl rfl

/-- C5: when the Enter walk consumes every token but the terminal node's
positional argument is required and was never supplied, the editor emits
the "Missing argument" outcome with a cleared buffer and the line recorded
to history — the command is not dispatched, no token sequence is
returned. -/
theorem c5_missing_required_argument (root : Cmd) (input : Str)
    (hist : List Str) (d : WalkDone) (a : ArgSpec)
    (hne : input ≠ [])
    (hwalk : enterGo input (tokenize input) root [] 0 input false =
      some (.inr d))
    (ha : d.final.first_arg = some a)
    (hreq : a.required = true) (hgiven : d.argGiven = false) :
    enterKey root input hist =
      some (.missingArg (histAdd hist (trimStr d.newInput)) [])
    ∧ ∀ args hist', enterKey root input hist ≠
        some (.resolved args hist') := by
  have hkey : enterKey root input hist =
      some (.missingArg (histAdd hist (trimStr d.newInput)) []) := by
    rw [enterKey, if_neg hne, hwalk]
    simp [ha, hreq, hgiven]
  refine ⟨hkey, ?_⟩
  intro args hist' hcon
  rw [hkey] at hcon
  simp at hcon

/-- Witness for C5: `"show"` alone plus Enter against the schema fragment
whose `show` requires an `ID`. -/
theorem c5_missing_required_argument_witness :
    enterKey rootCmd [115, 104, 111, 119] [] =
      some (.missingArg [[115, 104, 111, 119]] []) :=
  (c5_missing_required_argument rootCmd [115, 104, 111, 119] []
    ⟨showCmd, [[115, 104, 111, 119]], false, [115, 104, 111, 119]⟩ idArg
    (by decide) rfl rfl rfl rfl).1

/-- C6 counterexample: the unknown-token path records the rejected line
`"xyz "` to history as typed — with the trailing whitespace, *not* in
trimmed form. -/
theorem c6_counterexample :
    enterKey rootCmd [120, 121, 122, 32] [] =
      some (.invalid [120, 121, 122] [[120, 121, 122, 32]] [])
    ∧ ([[120, 121, 122, 32]] : List Str) ≠ [trimStr [120, 121, 122, 32]] := by
  constructor
  · decide
  · decide

/-- C6 amended: every line rejected during Enter resolution is still
recorded to history and becomes the chronologically last entry, retrievable
with one ArrowUp — but the unknown-token / ambiguous path records the line
as typed (with completions applied, untrimmed), while only the
missing-required-argument path records it trimmed. -/
theorem c6_amended_rejected_lines_recorded (root : Cmd) (input : Str)
    (hist : List Str) :
    (∀ w h b, enterKey root input hist = some (.invalid w h b) →
      ∃ line, h = histAdd hist line ∧ h.getLast? = some line ∧
        (upNext h (HistoryHandle.get h)).2 = some line)
    ∧ (∀ h b, enterKey root input hist = some (.missingArg h b) →
      ∃ line, h = histAdd hist (trimStr line) ∧
        h.getLast? = some (trimStr line) ∧
        (upNext h (HistoryHandle.get h)).2 = some (trimStr line)) := by
  have hlast : ∀ (l : Str), (histAdd hist l).getLast? = some l ∧
      (upNext (histAdd hist l) (HistoryHandle.get (histAdd hist l))).2 =
        some l := by
    intro l
    have h1 := histAdd_getLast hist l
    refine ⟨h1, ?_⟩
    rw [upNext_fresh_getLast _ (histAdd_ne_nil hist l)]
    exact h1
  by_cases hne : input = []
  · rw [enterKey, if_pos hne]
    constructor
    · intro w h b hcon
      simp at hcon
    · intro h b hcon
      simp at hcon
  · rw [enterKey, if_neg hne]
    cases hgo : enterGo input (tokenize input) root [] 0 input false with
    | none =>
      constructor
      · intro w h b hcon
        simp at hcon
      · intro h b hcon
        simp at hcon
    | some r =>
      cases r with
      | inl e =>
        cases e with
        | invalid w' ni =>
          constructor
          · intro w h b hcon
            simp only [Option.some.injEq] at hcon
            rcases hcon
            exact ⟨ni, rfl, (hlast ni).1, (hlast ni).2⟩
          · intro h b hcon
            simp at hcon
        | suggest ms ni =>
          constructor
          · intro w h b hcon
            simp at hcon
          · intro h b hcon
            simp at hcon
      | inr d =>
        cases hfa : d.final.first_arg with
        | none =>
          constructor
          · intro w h b hcon
            simp [hfa] at hcon
          · intro h b hcon
            simp [hfa] at hcon
        | some a =>
          by_cases hcond : a.required = true ∧ d.argGiven = false
          · constructor
            · intro w h b hcon
              simp [hfa, hcond] at hcon
            · intro h b hcon
              simp only [hfa, hcond, if_pos, Option.some.injEq] at hcon
              rcases hcon
              exact ⟨d.newInput, rfl, (hlast (trimStr d.newInput)).1,
                (hlast (trimStr d.newInput)).2⟩
          · constructor
            · intro w h b hcon
              simp [hfa, hcond] at hcon
            · intro h b hcon
              simp [hfa, hcond] at hcon

/-- Witness for the amended C6: the rejected line `"xyz "` is the last
history entry and one ArrowUp returns it. -/
theorem c6_amended_rejected_lines_recorded_witness :
    ∃ line, ([[120, 121, 122, 32]] : List Str) = histAdd [] line ∧
      ([[120, 121, 122, 32]] : List Str).getLast? = some line ∧
      (upNext [[120, 121, 122, 32]]
        (HistoryHandle.get [[120, 121, 122, 32]])).2 = some line :=
  (c6_amended_rejected_lines_recorded rootCmd [120, 121, 122, 32] []).1
    [120, 121, 122] [[120, 121, 122, 32]] [] rfl

/-- C7 counterexample: Tab on an empty buffer is not a no-op — it prints
the list of visible top-level commands below the cursor. -/
theorem c7_counterexample :
    tabKey rootCmd [] =
      some (.emptySuggest [[115, 104, 111, 119], [104, 101, 108, 112]])
    ∧ tabKey rootCmd [] ≠ some .noChange := by
  constructor
  · decide
  · decide

/-- C7 amended: with an empty buffer, Tab displays the visible top-level
command list as a suggestion below the cursor (buffer unchanged, still
editing), and Enter reprints the prompt and stays in Editing without
resolving and without touching the history. -/
theorem c7_amended_empty_buffer (root : Cmd) (hist : List Str) :
    tabKey root [] = some (.emptySuggest (get_visible_command_vector root))
    ∧ enterKey root [] hist = some (.reprompt hist []) :=
  ⟨rfl, rfl⟩

/-! ### The progress-indicator race (C9) -/

/-- C9: the claim that the primary thread joins the indicator before
clearing is violated — with only the flag store before the clear, the
interleaving "worker reads flag (false); primary stores; primary clears;
worker ticks" is admissible, and its tick glyph is written after the
clearing write.  (The source itself marks this: `TODO: BUG` in
`util::loading`.) -/
theorem c9_race_trace :
    validTrace [.load false, .store, .clear, .tick] = true
    ∧ tickAfterClear [.load false, .store, .clear, .tick] = true := by
  constructor
  · decide
  · decide

end Gerrit
